import Mathlib

/-
Shallow embedding of `src/spanning_tree/tree.py`.

Python list objects that are mutated through shared references (the PDU
`_path` lists and the per-bridge `_received_bdpus` lists) are modelled as
cells of explicit heaps inside the global state `St`; a Python reference to
such a list is a `Nat` index into the corresponding heap.  Bridges are
identified by their `name` (the source defines `Bridge.__eq__` by name), and
Python dicts are modelled as insertion-ordered association lists whose
update-in-place semantics matches CPython.
-/

abbrev Name := String

/-- Python exceptions raised by the source (`ValueError` carries its message;
`IndexError` is raised by an out-of-range list index).  `notFound` never
occurs in the flooding code; it marks model-internal arms for method calls on
a bridge name that is absent from the state, which cannot happen in Python
because methods are invoked on live objects. -/
inductive Err where
  | valueError (msg : String)
  | indexError
  | notFound
  deriving DecidableEq, Repr

/-- `Port` object state: `number`, `priority`, the two peer references
(`_listener`, `_listened`, held as indices into a port heap) and `_is_root`. -/
structure PortV where
  number : Int
  priority : Int
  listener : Option Nat
  listened : Option Nat
  is_root : Bool
  deriving DecidableEq, Repr

/-- A fresh port as built by `Port.__init__` once its number is settled. -/
def mkPort (number : Int) (priority : Int) : PortV :=
  { number := number, priority := priority,
    listener := none, listened := none, is_root := false }

/-- `Port.__init__`: `if number and (number < 1024 or number > 65535): raise
ValueError("Outside port range.")`, then `self._number = number if number
else _ephemeral_port()`.  Python truthiness: `None` and `0` are falsy, so a
supplied `0` skips the range check and draws the random number `rand`
(modelling `_ephemeral_port()`). -/
def Port.init (number : Option Int) (priority : Int) (rand : Int) :
    Except Err PortV :=
  match number with
  | some n =>
    if n ≠ 0 ∧ (n < 1024 ∨ n > 65535) then
      .error (.valueError "Outside port range.")
    else
      .ok (mkPort (if n ≠ 0 then n else rand) priority)
  | none => .ok (mkPort rand priority)

/-- `Port.connected`: `self.listener is not None and self.listened is not
None`. -/
def PortV.connected (p : PortV) : Bool :=
  p.listener.isSome && p.listened.isSome

/-- `Port.connect(other)`: `other.listener = self; self.listened = other`,
acting on a heap of port objects addressed by index. -/
def Port.connect (ports : List PortV) (selfRef otherRef : Nat) : List PortV :=
  let ports1 :=
    match ports.get? otherRef with
    | some q => ports.set otherRef { q with listener := some selfRef }
    | none => ports
  match ports1.get? selfRef with
  | some p => ports1.set selfRef { p with listened := some otherRef }
  | none => ports1

/-- `BridgeProtocolDataUnit` object state.  `path` is a reference (heap
index) to the Python list object held in `_path`; `copy.copy` duplicates the
four fields but not the list object behind `path`. -/
structure PDUv where
  bridge_id : Name
  root_id : Name
  total_cost : Int
  path : Nat
  deriving DecidableEq, Repr

/-- `Bridge` object state; `listened` and `listeners` are the two dicts keyed
by port number, `received` is the reference (heap index) to the Python list
object `_received_bdpus`. -/
structure BridgeV where
  name : Name
  ports : List PortV
  is_root : Bool
  listened : List (Int × Name)
  listeners : List (Int × Name)
  cost : Int
  received : Nat
  deriving DecidableEq, Repr

/-- Global state: the bridge objects plus the two heaps of mutable Python
list objects (PDU `_path` lists and per-bridge `_received_bdpus` lists). -/
structure St where
  bridges : List BridgeV
  paths : List (List Name)
  bdpuLists : List (List PDUv)
  deriving DecidableEq, Repr

def St.empty : St := ⟨[], [], []⟩

/-- CPython dict insertion: updating an existing key keeps its position,
otherwise the pair is appended. -/
def dictInsert (k : Int) (v : Name) : List (Int × Name) → List (Int × Name)
  | [] => [(k, v)]
  | (k', v') :: rest =>
    if k' = k then (k', v) :: rest else (k', v') :: dictInsert k v rest

/-- `dict.values()` in insertion order. -/
def dictValues (d : List (Int × Name)) : List Name := d.map Prod.snd

def getPath (st : St) (r : Nat) : List Name := st.paths.getD r []

def setPath (st : St) (r : Nat) (l : List Name) : St :=
  { st with paths := st.paths.set r l }

def getCell (st : St) (r : Nat) : List PDUv := st.bdpuLists.getD r []

def setCell (st : St) (r : Nat) (l : List PDUv) : St :=
  { st with bdpuLists := st.bdpuLists.set r l }

/-- Bridge lookup by identity (`Bridge.__eq__` compares names). -/
def findBridge (st : St) (n : Name) : Option BridgeV :=
  st.bridges.find? (fun b => b.name == n)

def updateBridge (st : St) (n : Name) (f : BridgeV → BridgeV) : St :=
  { st with bridges := st.bridges.map (fun b => if b.name == n then f b else b) }

/-- `BridgeProtocolDataUnit.__init__`: `total_cost = 0` and `_path = []` — a
fresh list object, allocated here at the end of the path heap. -/
def BridgeProtocolDataUnit.init (st : St) (bridge_id root_id : Name) :
    PDUv × St :=
  ({ bridge_id := bridge_id, root_id := root_id, total_cost := 0,
     path := st.paths.length },
   { st with paths := st.paths ++ [[]] })

/-- `BridgeProtocolDataUnit.copy`: `copy.copy(self)` — a new object with the
same field values; in particular the `path` reference is shared, not the list
behind it. -/
def PDUv.copy (p : PDUv) : PDUv := p

/-- `add_bridge(bridge)`: `self._path.append(bridge)` — mutates the (possibly
shared) list object behind `path`. -/
def PDUv.add_bridge (p : PDUv) (st : St) (b : Name) : St :=
  setPath st p.path (getPath st p.path ++ [b])

/-- `add_cost(cost)`: `self._total_cost += cost` — mutates only this PDU
object's own scalar. -/
def PDUv.add_cost (p : PDUv) (c : Int) : PDUv :=
  { p with total_cost := p.total_cost + c }

/-- `Bridge.__init__(name, *ports, cost=1)`: `ports if ports else [Port()]`
(the default port's random number is `rand`), empty dicts, and a fresh
`_received_bdpus` list object allocated at the end of the heap. -/
def Bridge.init (st : St) (name : Name) (ports : List PortV) (rand : Int)
    (cost : Int) : St :=
  let ps := if ports.isEmpty then [mkPort rand 1] else ports
  { st with
    bridges := st.bridges ++
      [{ name := name, ports := ps, is_root := false, listened := [],
         listeners := [], cost := cost, received := st.bdpuLists.length }],
    bdpuLists := st.bdpuLists ++ [[]] }

/-- `Bridge.elect()`: `self._is_root = True`. -/
def Bridge.elect (st : St) (n : Name) : St :=
  updateBridge st n (fun b => { b with is_root := true })

/-- `Bridge.unallocated_port`: the first port with `not port.connected`,
else `None`. -/
def BridgeV.unallocated_port (b : BridgeV) : Option PortV :=
  b.ports.find? (fun p => !p.connected)

/-- `Bridge.set_listener(other)`: raises `ValueError("No free ports.")` when
no unallocated port exists, else `self._listeners[port.number] = other`. -/
def Bridge.set_listener (st : St) (selfN otherN : Name) : Except Err St :=
  match findBridge st selfN with
  | none => .error .notFound
  | some b =>
    match b.unallocated_port with
    | none => .error (.valueError "No free ports.")
    | some p =>
      .ok (updateBridge st selfN
        (fun bb => { bb with listeners := dictInsert p.number otherN bb.listeners }))

/-- `Bridge.connect(other)`: raises `ValueError("No free ports.")` when no
unallocated port exists, else records `self._listened[port.number] = other`
and then calls `other.set_listener(self)`. -/
def Bridge.connect (st : St) (selfN otherN : Name) : Except Err St :=
  match findBridge st selfN with
  | none => .error .notFound
  | some b =>
    match b.unallocated_port with
    | none => .error (.valueError "No free ports.")
    | some p =>
      let st1 := updateBridge st selfN
        (fun bb => { bb with listened := dictInsert p.number otherN bb.listened })
      Bridge.set_listener st1 otherN selfN

/-- `Bridge.received_bdpus`: `return self._received_bdpus.copy()` — a fresh
list object with the same elements, allocated at the end of the heap; the
pair is (reference to the fresh copy, new state). -/
def Bridge.received_bdpus (st : St) (n : Name) : Option (Nat × St) :=
  (findBridge st n).map (fun b =>
    (st.bdpuLists.length,
     { st with bdpuLists := st.bdpuLists ++ [st.bdpuLists.getD b.received []] }))

/-- `Bridge.send_bdpu(bdpu)`: clone, stamp the clone (append self to its path
list, add own cost), append the clone to `_received_bdpus`, then recurse with
the original `bdpu` into every listener.  `fuel` bounds the recursion depth
(one unit per nesting level); `none` means the bound was exceeded. -/
def send_bdpu : Nat → Name → PDUv → St → Option St
  | 0, _, _, _ => none
  | fuel + 1, bname, bdpu, st =>
    match findBridge st bname with
    | none => none
    | some b =>
      let copied := bdpu.copy
      let st1 := copied.add_bridge st b.name
      let copied := copied.add_cost b.cost
      let st2 := setCell st1 b.received (getCell st1 b.received ++ [copied])
      (dictValues b.listeners).foldl
        (fun acc l => acc.bind (fun s => send_bdpu fuel l bdpu s)) (some st2)

/-- Stable ascending insertion by `total_cost`: a later element is placed
after every existing element of not-greater cost, as Python's stable
`list.sort(key=...)` orders equal keys by arrival. -/
def insertByCost (p : PDUv) : List PDUv → List PDUv
  | [] => [p]
  | q :: rest =>
    if p.total_cost < q.total_cost then p :: q :: rest
    else q :: insertByCost p rest

/-- `list.sort(key=lambda bdpu: bdpu.total_cost)` (stable). -/
def sortByCost (l : List PDUv) : List PDUv :=
  l.foldl (fun acc p => insertByCost p acc) []

/-- `shortest_path(root_bridge, sending_bridge)` with the selected PDU also
returned: build a fresh PDU, flood it from the sender, take the root's
`received_bdpus` copy, sort that copy in place by `total_cost`, and index
`[0]` (an empty list raises `IndexError`).  The result pairs the selected
PDU with the current contents of its path list object. -/
def shortest_path_core (fuel : Nat) (st : St) (rootN sendN : Name) :
    Option (Except Err (PDUv × List Name) × St) :=
  match BridgeProtocolDataUnit.init st sendN rootN with
  | (pdu, st0) =>
    match send_bdpu fuel sendN pdu st0 with
    | none => none
    | some st1 =>
      match Bridge.received_bdpus st1 rootN with
      | none => some (.error .notFound, st1)
      | some (r, st2) =>
        let st3 := setCell st2 r (sortByCost (getCell st2 r))
        match (getCell st3 r).head? with
        | none => some (.error .indexError, st3)
        | some sel => some (.ok (sel, getPath st3 sel.path), st3)

/-- `shortest_path(root_bridge, sending_bridge)`: the returned value is the
selected PDU's path (the contents of its path list object). -/
def shortest_path (fuel : Nat) (st : St) (rootN sendN : Name) :
    Option (Except Err (List Name) × St) :=
  (shortest_path_core fuel st rootN sendN).map
    (fun r => (r.1.map (fun x => x.2), r.2))

instance {ε α : Type} [DecidableEq ε] [DecidableEq α] :
    DecidableEq (Except ε α) := fun a b =>
  match a, b with
  | .ok x, .ok y =>
    if h : x = y then isTrue (by rw [h]) else isFalse (by simp [h])
  | .error x, .error y =>
    if h : x = y then isTrue (by rw [h]) else isFalse (by simp [h])
  | .ok _, .error _ => isFalse (by simp)
  | .error _, .ok _ => isFalse (by simp)

/-- Chained topology construction: propagate a construction error. -/
def stepConnect (s : Except Err St) (x y : Name) : Except Err St :=
  s.bind (fun st => Bridge.connect st x y)

/-- The topology of `first_case` in `src/tests/unit/test_tree.py`:
`root ← a(1) ← c(1) ← d(1) ← f(1)` and `root ← a(1) ← b(1) ← e(1)`, every
bridge with cost 1; bridge `a` has the explicit ports `Port(1024)` and
`Port(1025)`, every other bridge has one default port whose random ephemeral
number is the corresponding parameter. -/
def fcBuild (r0 rb rc rd re rf : Int) : Except Err St :=
  let st := Bridge.init St.empty "root" [] r0 1
  let st := Bridge.elect st "root"
  let st := Bridge.init st "a" [mkPort 1024 1, mkPort 1025 1] 0 1
  let st := Bridge.init st "b" [] rb 1
  let st := Bridge.init st "c" [] rc 1
  let st := Bridge.init st "d" [] rd 1
  let st := Bridge.init st "e" [] re 1
  let st := Bridge.init st "f" [] rf 1
  let s := Bridge.connect st "root" "a"
  let s := stepConnect s "a" "c"
  let s := stepConnect s "c" "d"
  let s := stepConnect s "d" "f"
  let s := stepConnect s "a" "b"
  stepConnect s "b" "e"

/-- A listener chain in the topology: every bridge of the list exists, each
one's listener dict has exactly the next bridge as its values, and the final
bridge has no listeners.  This is how a tree topology built by
`parent.connect(child)` calls looks along the route from a sender to the
root: each bridge acquires exactly its parent as listener. -/
def listedOk (st : St) (b : Name) (expect : List Name) : Bool :=
  match findBridge st b with
  | none => false
  | some bb => dictValues bb.listeners == expect

def chainOk (st : St) : List Name → Bool
  | [] => false
  | [b] => listedOk st b []
  | b :: c :: rest => listedOk st b [c] && chainOk st (c :: rest)

/-- One hop of a chain flood: the visited bridge appends its name to the
shared path list object and appends its own cost-stamped copy of the original
`pdu` to its received list object — the effect of the first four statements
of `send_bdpu` before the recursion into the listeners. -/
def chainStep (st : St) (pdu : PDUv) (b : Name) : St :=
  match findBridge st b with
  | none => st
  | some bb =>
    setCell (pdu.add_bridge st bb.name) bb.received
      (getCell (pdu.add_bridge st bb.name) bb.received ++ [pdu.add_cost bb.cost])

/-- The state produced by flooding `pdu` along a listener chain. -/
def chainResult (st : St) (pdu : PDUv) : List Name → St
  | [] => st
  | b :: rest => chainResult (chainStep st pdu b) pdu rest

/-- The PDU copies that the hop at bridge `b` appends to the received list
object at heap index `r` (one cost-stamped copy of `pdu` when `b`'s
`_received_bdpus` reference is `r`, none otherwise). -/
def stepPdus (st : St) (pdu : PDUv) (r : Nat) (b : Name) : List PDUv :=
  match findBridge st b with
  | none => []
  | some bb => if bb.received = r then [pdu.add_cost bb.cost] else []

/-- The PDU copies that a flood along a chain appends to the received list
object at heap index `r`, in visiting order. -/
def chainPdus (st : St) (pdu : PDUv) (r : Nat) : List Name → List PDUv
  | [] => []
  | b :: rest => stepPdus st pdu r b ++ chainPdus st pdu r rest

def exOk {α : Type} : Except Err α → Bool
  | .ok _ => true
  | .error _ => false

/-- Every port of the bridge reports `connected == True`. -/
def allPortsConnected (b : BridgeV) : Bool :=
  b.ports.all (fun p => p.connected)

/-- The three-successive-connects state: four one-port bridges; no port is
ever marked connected by `Bridge.connect`, so bridge `x` never runs out. -/
def c5St : St :=
  ⟨[⟨"x", [mkPort 2000 1], false, [], [], 1, 0⟩,
    ⟨"y", [mkPort 2001 1], false, [], [], 1, 1⟩,
    ⟨"z", [mkPort 2002 1], false, [], [], 1, 2⟩,
    ⟨"w", [mkPort 2003 1], false, [], [], 1, 3⟩], [], [[], [], [], []]⟩

/-- A state whose bridge `x` has its only port fully connected (both peer
references set), so every port of `x` is allocated. -/
def c5WSt : St :=
  ⟨[⟨"x", [⟨2000, 1, some 0, some 1, false⟩], false, [], [], 1, 0⟩,
    ⟨"y", [mkPort 2001 1], false, [], [], 1, 1⟩], [], [[], []]⟩

/-- One-bridge state for the C3 counterexample: bridge x with cost 1 and no
listeners; index 0 of the path heap holds the original PDU's (initially
empty) path list object. -/
def xSt : St := ⟨[⟨"x", [mkPort 2000 1], false, [], [], 1, 0⟩], [[]], [[]]⟩

/-- The `first_case` topology at one concrete draw of the ephemeral port
numbers. -/
def fcStC : St := (fcBuild 2000 2001 2002 2003 2004 2005).toOption.getD St.empty

/-- The root bridge object of `fcStC`. -/
def rootB : BridgeV := ⟨"root", [mkPort 2000 1], true, [(2000, "a")], [], 1, 0⟩

def c1Run : Except Err (List Name) × St :=
  (shortest_path 10 fcStC "root" "e").getD (.error .indexError, St.empty)

/-- Sum of the per-bridge costs of the named bridges. -/
def costSum (st : St) (l : List Name) : Int :=
  l.foldl (fun a n => a + ((findBridge st n).map (fun b => b.cost)).getD 0) 0

def c2Run : Except Err (PDUv × List Name) × St :=
  (shortest_path_core 10 fcStC "root" "e").getD (.error .indexError, St.empty)

def c2Sel : PDUv × List Name :=
  match c2Run.1 with
  | .ok sp => sp
  | .error _ => (⟨"", "", 0, 0⟩, [])

/-- A disconnected topology: the sender `s` has no listeners, so the root
bridge never receives a PDU. -/
def discSt : St :=
  ⟨[⟨"root", [mkPort 2000 1], true, [], [], 1, 0⟩,
    ⟨"s", [mkPort 2001 1], false, [], [], 1, 1⟩], [], [[], []]⟩

def c8Run : Except Err (List Name) × St :=
  (shortest_path 5 discSt "root" "s").getD (.ok [], St.empty)

/-- The state that `fcBuild` produces: the test's `first_case` topology.
`a._listened` holds only `b` because the second `a.connect(...)` overwrites
the dict entry at key 1024 (the same first port is returned every time —
ports are never marked connected); the `_listened` dict is not used by the
flood. -/
def fcSt (r0 rb rc rd re rf : Int) : St :=
  ⟨[⟨"root", [mkPort r0 1], true, [(r0, "a")], [], 1, 0⟩,
    ⟨"a", [mkPort 1024 1, mkPort 1025 1], false, [(1024, "b")],
      [(1024, "root")], 1, 1⟩,
    ⟨"b", [mkPort rb 1], false, [(rb, "e")], [(rb, "a")], 1, 2⟩,
    ⟨"c", [mkPort rc 1], false, [(rc, "d")], [(rc, "a")], 1, 3⟩,
    ⟨"d", [mkPort rd 1], false, [(rd, "f")], [(rd, "c")], 1, 4⟩,
    ⟨"e", [mkPort re 1], false, [], [(re, "b")], 1, 5⟩,
    ⟨"f", [mkPort rf 1], false, [], [(rf, "d")], 1, 6⟩],
   [], [[], [], [], [], [], [], []]⟩

/-- The rank (longest listener chain bound) of the `first_case` topology. -/
def fcRank : Name → Nat := fun n =>
  if n = "e" then 3 else if n = "f" then 4 else if n = "d" then 3 else
  if n = "b" then 2 else if n = "c" then 2 else if n = "a" then 1 else 0

def c10St1 : St :=
  (send_bdpu 10 "e" ⟨"e", "root", 0, fcStC.paths.length⟩
    { fcStC with paths := fcStC.paths ++ [[]] }).getD St.empty

def c10Run : Except Err (List Name) × St :=
  (shortest_path 10 fcStC "root" "e").getD (.error .indexError, St.empty)

lemma chainResult_nil (st : St) (pdu : PDUv) : chainResult st pdu [] = st := rfl

lemma chainResult_cons (st : St) (pdu : PDUv) (b : Name) (rest : List Name) :
    chainResult st pdu (b :: rest) =
      chainResult (chainStep st pdu b) pdu rest := rfl

lemma chainPdus_cons (st : St) (pdu : PDUv) (r : Nat) (b : Name)
    (rest : List Name) :
    chainPdus st pdu r (b :: rest) =
      stepPdus st pdu r b ++ chainPdus st pdu r rest := rfl

lemma getD_set_same {α : Type} (l : List α) (i : Nat) (v d : α)
    (h : i < l.length) : (l.set i v).getD i d = v := by
  induction l generalizing i with
  | nil => simp at h
  | cons a t ih =>
    cases i with
    | zero => simp [List.set, List.getD]
    | succ j =>
      simp only [List.set, List.getD_cons_succ]
      exact ih j (by simpa using h)

lemma getD_set_other {α : Type} (l : List α) (i j : Nat) (v d : α)
    (h : i ≠ j) : (l.set i v).getD j d = l.getD j d := by
  induction l generalizing i j with
  | nil => simp [List.set]
  | cons a t ih =>
    cases i with
    | zero =>
      cases j with
      | zero => exact absurd rfl h
      | succ k => simp [List.set, List.getD_cons_succ]
    | succ i' =>
      cases j with
      | zero => simp [List.set, List.getD_cons_zero]
      | succ k =>
        simp only [List.set, List.getD_cons_succ]
        exact ih i' k (by omega)

lemma getD_append_len {α : Type} (l : List α) (x d : α) :
    (l ++ [x]).getD l.length d = x := by
  induction l with
  | nil => rfl
  | cons a t ih => simp [ih]

lemma getD_append_lt {α : Type} (l : List α) (x d : α) (i : Nat)
    (h : i < l.length) : (l ++ [x]).getD i d = l.getD i d := by
  induction l generalizing i with
  | nil => simp at h
  | cons a t ih =>
    cases i with
    | zero => rfl
    | succ j =>
      simp only [List.cons_append, List.getD_cons_succ]
      exact ih j (by simpa using h)

lemma findBridge_congr {st1 st2 : St} (h : st1.bridges = st2.bridges)
    (n : Name) : findBridge st1 n = findBridge st2 n := by
  simp [findBridge, h]

lemma listedOk_congr {st1 st2 : St} (h : st1.bridges = st2.bridges)
    (b : Name) (expect : List Name) :
    listedOk st1 b expect = listedOk st2 b expect := by
  simp only [listedOk, findBridge_congr h]

lemma chainOk_congr {st1 st2 : St} (h : st1.bridges = st2.bridges)
    (l : List Name) : chainOk st1 l = chainOk st2 l := by
  induction l with
  | nil => rfl
  | cons b rest ih =>
    cases rest with
    | nil => simp only [chainOk, listedOk_congr h]
    | cons c rest2 =>
      simp only [chainOk, listedOk_congr h]
      rw [ih]

lemma stepPdus_congr {st1 st2 : St} (h : st1.bridges = st2.bridges)
    (pdu : PDUv) (r : Nat) (b : Name) :
    stepPdus st1 pdu r b = stepPdus st2 pdu r b := by
  simp only [stepPdus, findBridge_congr h]

lemma chainPdus_congr {st1 st2 : St} (h : st1.bridges = st2.bridges)
    (pdu : PDUv) (r : Nat) (l : List Name) :
    chainPdus st1 pdu r l = chainPdus st2 pdu r l := by
  induction l with
  | nil => rfl
  | cons b rest ih => simp only [chainPdus, stepPdus_congr h, ih]

lemma setPath_bridges (st : St) (r : Nat) (l : List Name) :
    (setPath st r l).bridges = st.bridges := rfl

lemma setCell_bridges (st : St) (r : Nat) (l : List PDUv) :
    (setCell st r l).bridges = st.bridges := rfl

lemma chainStep_bridges (st : St) (pdu : PDUv) (b : Name) :
    (chainStep st pdu b).bridges = st.bridges := by
  simp only [chainStep]
  cases findBridge st b <;> rfl

lemma chainStep_paths_length (st : St) (pdu : PDUv) (b : Name) :
    (chainStep st pdu b).paths.length = st.paths.length := by
  simp only [chainStep]
  cases findBridge st b with
  | none => rfl
  | some bb => simp [setCell, PDUv.add_bridge, setPath]

lemma chainStep_cells_length (st : St) (pdu : PDUv) (b : Name) :
    (chainStep st pdu b).bdpuLists.length = st.bdpuLists.length := by
  simp only [chainStep]
  cases findBridge st b with
  | none => rfl
  | some bb => simp [setCell, PDUv.add_bridge, setPath]

lemma chainResult_bridges (l : List Name) :
    ∀ (st : St) (pdu : PDUv), (chainResult st pdu l).bridges = st.bridges := by
  induction l with
  | nil => intro st pdu; rfl
  | cons b rest ih =>
    intro st pdu
    rw [chainResult_cons, ih, chainStep_bridges]

lemma chainResult_paths_length (l : List Name) :
    ∀ (st : St) (pdu : PDUv),
    (chainResult st pdu l).paths.length = st.paths.length := by
  induction l with
  | nil => intro st pdu; rfl
  | cons b rest ih =>
    intro st pdu
    rw [chainResult_cons, ih, chainStep_paths_length]

lemma chainResult_cells_length (l : List Name) :
    ∀ (st : St) (pdu : PDUv),
    (chainResult st pdu l).bdpuLists.length = st.bdpuLists.length := by
  induction l with
  | nil => intro st pdu; rfl
  | cons b rest ih =>
    intro st pdu
    rw [chainResult_cons, ih, chainStep_cells_length]

lemma getPath_setCell (st : St) (r : Nat) (l : List PDUv) (q : Nat) :
    getPath (setCell st r l) q = getPath st q := rfl

lemma getCell_setPath (st : St) (r : Nat) (l : List Name) (q : Nat) :
    getCell (setPath st r l) q = getCell st q := rfl

lemma chainOk_chainStep (st : St) (pdu : PDUv) (b : Name) (l : List Name) :
    chainOk (chainStep st pdu b) l = chainOk st l :=
  chainOk_congr (chainStep_bridges st pdu b) l

lemma chainPdus_chainStep (st : St) (pdu qdu : PDUv) (b : Name) (r : Nat)
    (l : List Name) :
    chainPdus (chainStep st pdu b) qdu r l = chainPdus st qdu r l :=
  chainPdus_congr (chainStep_bridges st pdu b) qdu r l

lemma findBridge_chainStep (st : St) (pdu : PDUv) (b n : Name) :
    findBridge (chainStep st pdu b) n = findBridge st n :=
  findBridge_congr (chainStep_bridges st pdu b) n

lemma chainStep_some {st : St} {b : Name} {bb : BridgeV}
    (hfb : findBridge st b = some bb) (pdu : PDUv) :
    chainStep st pdu b =
      setCell (pdu.add_bridge st bb.name) bb.received
        (getCell (pdu.add_bridge st bb.name) bb.received ++
          [pdu.add_cost bb.cost]) := by
  simp [chainStep, hfb]

lemma getPath_chainStep {st : St} {b : Name} {bb : BridgeV}
    (hfb : findBridge st b = some bb) (pdu : PDUv)
    (hp : pdu.path < st.paths.length) :
    getPath (chainStep st pdu b) pdu.path = getPath st pdu.path ++ [b] := by
  have hname : bb.name = b := by simpa using List.find?_some hfb
  rw [chainStep_some hfb, getPath_setCell]
  simp only [PDUv.add_bridge, getPath, setPath]
  rw [getD_set_same _ _ _ _ hp, hname]

lemma getCell_chainStep {st : St} {b : Name} {bb : BridgeV}
    (hfb : findBridge st b = some bb) (pdu : PDUv) (r : Nat)
    (hr : r < st.bdpuLists.length) :
    getCell (chainStep st pdu b) r = getCell st r ++ stepPdus st pdu r b := by
  rw [chainStep_some hfb]
  simp only [stepPdus, hfb]
  by_cases hbr : bb.received = r
  · subst hbr
    simp only [getCell, setCell, if_pos rfl]
    rw [getD_set_same]
    · rfl
    · simpa [PDUv.add_bridge, setPath] using hr
  · simp only [getCell, setCell, if_neg hbr]
    rw [getD_set_other _ _ _ _ _ hbr]
    simp [PDUv.add_bridge, setPath]

/-- Flooding from the head of a listener chain runs to completion and yields
exactly the state described by `chainResult`, provided the fuel covers the
chain's recursion depth. -/
lemma flood_chain (rest : List Name) :
    ∀ (b : Name) (st : St) (pdu : PDUv) (fuel : Nat),
    chainOk st (b :: rest) = true → rest.length < fuel →
    send_bdpu fuel b pdu st = some (chainResult st pdu (b :: rest)) := by
  induction rest with
  | nil =>
    intro b st pdu fuel hok hfuel
    obtain ⟨f, rfl⟩ : ∃ f, fuel = f + 1 := ⟨fuel - 1, by omega⟩
    simp only [chainOk, listedOk] at hok
    cases hfb : findBridge st b with
    | none => rw [hfb] at hok; simp at hok
    | some bb =>
      rw [hfb] at hok
      have hls : dictValues bb.listeners = [] := by simpa using hok
      rw [chainResult_cons, chainResult_nil, chainStep_some hfb]
      simp only [send_bdpu, hfb, hls, List.foldl_nil]
      rfl
  | cons c rest2 ih =>
    intro b st pdu fuel hok hfuel
    obtain ⟨f, rfl⟩ : ∃ f, fuel = f + 1 := ⟨fuel - 1, by omega⟩
    simp only [chainOk, listedOk, Bool.and_eq_true] at hok
    obtain ⟨hok1, hok2⟩ := hok
    cases hfb : findBridge st b with
    | none => rw [hfb] at hok1; simp at hok1
    | some bb =>
      rw [hfb] at hok1
      have hls : dictValues bb.listeners = [c] := by simpa using hok1
      rw [chainResult_cons]
      simp only [send_bdpu, hfb, hls, List.foldl_cons, List.foldl_nil,
        Option.some_bind]
      have hok2s : chainOk (chainStep st pdu b) (c :: rest2) = true := by
        rw [chainOk_chainStep]; exact hok2
      have hrec := ih c (chainStep st pdu b) pdu f hok2s (by simpa using hfuel)
      nth_rewrite 1 [chainStep_some hfb] at hrec
      exact hrec

/-- After a chain flood, the original PDU's path list object holds its old
contents followed by every visited bridge, in visiting order. -/
lemma chainResult_path_cell (l : List Name) :
    ∀ (st : St) (pdu : PDUv),
    chainOk st l = true → pdu.path < st.paths.length →
    getPath (chainResult st pdu l) pdu.path = getPath st pdu.path ++ l := by
  induction l with
  | nil => intro st pdu hok _; simp [chainOk] at hok
  | cons b rest ih =>
    intro st pdu hok hp
    cases hfb : findBridge st b with
    | none =>
      exfalso
      cases rest <;> simp [chainOk, listedOk, hfb] at hok
    | some bb =>
      rw [chainResult_cons]
      cases rest with
      | nil =>
        rw [chainResult_nil, getPath_chainStep hfb pdu hp]
      | cons c rest2 =>
        have hok2 : chainOk st (c :: rest2) = true := by
          simp only [chainOk, Bool.and_eq_true] at hok
          exact hok.2
        rw [ih (chainStep st pdu b) pdu (by rw [chainOk_chainStep]; exact hok2)
            (by rw [chainStep_paths_length]; exact hp)]
        rw [getPath_chainStep hfb pdu hp, List.append_assoc]
        rfl

/-- After a chain flood, the received list object at heap index `r` holds its
old contents followed by exactly the copies `chainPdus` describes. -/
lemma chainResult_cell (l : List Name) :
    ∀ (st : St) (pdu : PDUv) (r : Nat),
    chainOk st l = true → r < st.bdpuLists.length →
    getCell (chainResult st pdu l) r = getCell st r ++ chainPdus st pdu r l := by
  induction l with
  | nil => intro st pdu r hok _; simp [chainOk] at hok
  | cons b rest ih =>
    intro st pdu r hok hr
    cases hfb : findBridge st b with
    | none =>
      exfalso
      cases rest <;> simp [chainOk, listedOk, hfb] at hok
    | some bb =>
      rw [chainResult_cons, chainPdus_cons]
      cases rest with
      | nil =>
        rw [chainResult_nil, getCell_chainStep hfb pdu r hr]
        simp [chainPdus]
      | cons c rest2 =>
        have hok2 : chainOk st (c :: rest2) = true := by
          simp only [chainOk, Bool.and_eq_true] at hok
          exact hok.2
        rw [ih (chainStep st pdu b) pdu r (by rw [chainOk_chainStep]; exact hok2)
            (by rw [chainStep_cells_length]; exact hr)]
        rw [getCell_chainStep hfb pdu r hr, chainPdus_chainStep,
          List.append_assoc]

lemma length_insertByCost (p : PDUv) (l : List PDUv) :
    (insertByCost p l).length = l.length + 1 := by
  induction l with
  | nil => rfl
  | cons q rest ih =>
    simp only [insertByCost]
    by_cases h : p.total_cost < q.total_cost
    · simp [h]
    · simp [h, ih]

lemma length_sortByCost (l : List PDUv) : (sortByCost l).length = l.length := by
  have aux : ∀ (l acc : List PDUv),
      (l.foldl (fun acc p => insertByCost p acc) acc).length =
        acc.length + l.length := by
    intro l
    induction l with
    | nil => intro acc; simp
    | cons p rest ih =>
      intro acc
      simp only [List.foldl_cons]
      rw [ih, length_insertByCost]
      simp only [List.length_cons]
      omega
  simpa [sortByCost] using aux l []

lemma mem_insertByCost {q p : PDUv} {l : List PDUv} :
    q ∈ insertByCost p l ↔ q = p ∨ q ∈ l := by
  induction l with
  | nil => simp [insertByCost]
  | cons x rest ih =>
    simp only [insertByCost]
    by_cases h : p.total_cost < x.total_cost
    · simp only [h, if_true, List.mem_cons]
    · simp only [h, if_false, List.mem_cons, ih]
      tauto

lemma mem_sortByCost {q : PDUv} {l : List PDUv} :
    q ∈ sortByCost l ↔ q ∈ l := by
  have aux : ∀ (l acc : List PDUv) (q : PDUv),
      (q ∈ l.foldl (fun acc p => insertByCost p acc) acc) ↔
        q ∈ acc ∨ q ∈ l := by
    intro l
    induction l with
    | nil => intro acc q; simp
    | cons p rest ih =>
      intro acc q
      simp only [List.foldl_cons]
      rw [ih, mem_insertByCost]
      simp
      tauto
  simpa [sortByCost] using aux l [] q

lemma mem_of_getLast {α : Type} {l : List α} {a : α}
    (h : l.getLast? = some a) : a ∈ l := by
  induction l with
  | nil => simp at h
  | cons x rest ih =>
    cases rest with
    | nil =>
      simp [List.getLast?] at h
      simp [h]
    | cons y rest2 =>
      rw [List.getLast?_cons_cons] at h
      exact List.mem_cons_of_mem x (ih h)

lemma chainPdus_path (l : List Name) :
    ∀ (st : St) (pdu : PDUv) (r : Nat) (q : PDUv),
    q ∈ chainPdus st pdu r l → q.path = pdu.path := by
  induction l with
  | nil => intro st pdu r q h; simp [chainPdus] at h
  | cons b rest ih =>
    intro st pdu r q h
    rw [chainPdus_cons, List.mem_append] at h
    cases h with
    | inl h =>
      cases hfb : findBridge st b with
      | none => simp only [stepPdus, hfb] at h; simp at h
      | some bb =>
        simp only [stepPdus, hfb] at h
        by_cases hbr : bb.received = r
        · rw [if_pos hbr] at h
          simp at h
          rw [h]
          rfl
        · rw [if_neg hbr] at h; simp at h
    | inr h => exact ih st pdu r q h

lemma chainPdus_nil_of_miss (l : List Name) :
    ∀ (st : St) (pdu : PDUv) (r : Nat),
    (∀ b ∈ l, ∀ bb, findBridge st b = some bb → bb.received ≠ r) →
    chainPdus st pdu r l = [] := by
  induction l with
  | nil => intro st pdu r _; rfl
  | cons b rest ih =>
    intro st pdu r hmiss
    rw [chainPdus_cons, ih st pdu r
      (fun x hx bb hbb => hmiss x (List.mem_cons_of_mem b hx) bb hbb)]
    rw [List.append_nil]
    cases hfb : findBridge st b with
    | none => simp only [stepPdus, hfb]
    | some bb =>
      simp only [stepPdus, hfb]
      rw [if_neg (hmiss b (List.mem_cons_self _ _) bb hfb)]

lemma chainPdus_ne_nil {l : List Name} {st : St} {rootN : Name} {rb : BridgeV}
    (pdu : PDUv) (hmem : rootN ∈ l) (hfb : findBridge st rootN = some rb) :
    chainPdus st pdu rb.received l ≠ [] := by
  induction l with
  | nil => simp at hmem
  | cons b rest ih =>
    rw [chainPdus_cons]
    rcases List.mem_cons.mp hmem with hb | hb
    · subst hb
      simp [stepPdus, hfb]
    · intro hcontra
      exact ih hb (List.append_eq_nil.mp hcontra).2

/-- When the chain visits the target cell's bridge exactly once, as its last
element, the flood appends exactly one copy there. -/
lemma chainPdus_last_single (l : List Name) :
    ∀ (st : St) (pdu : PDUv) (rootN : Name) (rb : BridgeV),
    l.getLast? = some rootN → findBridge st rootN = some rb →
    (∀ b ∈ l.dropLast, ∀ bb, findBridge st b = some bb →
      bb.received ≠ rb.received) →
    chainPdus st pdu rb.received l = [pdu.add_cost rb.cost] := by
  induction l with
  | nil => intro st pdu rootN rb h _ _; simp at h
  | cons b rest ih =>
    intro st pdu rootN rb hlast hroot hmiss
    cases rest with
    | nil =>
      rw [List.getLast?_singleton] at hlast
      have hb : b = rootN := by injection hlast
      subst hb
      simp [chainPdus, stepPdus, hroot]
    | cons c rest2 =>
      rw [List.getLast?_cons_cons] at hlast
      have hdrop : (b :: c :: rest2).dropLast = b :: (c :: rest2).dropLast := by
        simp [List.dropLast]
      rw [chainPdus_cons,
        ih st pdu rootN rb hlast hroot
          (fun x hx bb hbb => hmiss x (by rw [hdrop]; exact List.mem_cons_of_mem b hx) bb hbb)]
      have hbmem : b ∈ (b :: c :: rest2).dropLast := by
        rw [hdrop]; exact List.mem_cons_self _ _
      cases hfb : findBridge st b with
      | none => simp only [stepPdus, hfb, List.nil_append]
      | some bb =>
        simp only [stepPdus, hfb]
        rw [if_neg (hmiss b hbmem bb hfb)]
        rfl

lemma mem_of_head {α : Type} {l : List α} {a : α} (h : l.head? = some a) :
    a ∈ l := by
  cases l with
  | nil => simp at h
  | cons x rest =>
    rw [List.head?_cons] at h
    injection h with h
    exact h ▸ List.mem_cons_self _ _

/-- Evaluation of `shortest_path_core` over a listener chain that starts at
the sender: the flood deposits `chainPdus` in the root's received list
object, the sorted copy is indexed, and the returned path is the whole chain
(the contents of the shared path list object at the end of the flood). -/
lemma shortest_path_core_eval (fuel : Nat) (st : St) (rootN sendN : Name)
    (chain : List Name) (rb : BridgeV)
    (hok : chainOk st chain = true)
    (hhead : chain.head? = some sendN)
    (hroot : findBridge st rootN = some rb)
    (hr : rb.received < st.bdpuLists.length)
    (hempty : getCell st rb.received = [])
    (hfuel : chain.length ≤ fuel) :
    ∃ st3 : St,
      shortest_path_core fuel st rootN sendN =
        (match (sortByCost (chainPdus st ⟨sendN, rootN, 0, st.paths.length⟩
            rb.received chain)).head? with
         | none => some (.error .indexError, st3)
         | some sel => some (.ok (sel, chain), st3)) := by
  obtain ⟨crest, rfl⟩ : ∃ crest, chain = sendN :: crest := by
    cases chain with
    | nil => simp [chainOk] at hok
    | cons b crest =>
      have hb : b = sendN := by simpa using hhead
      exact ⟨crest, by rw [hb]⟩
  have hok0 : chainOk { st with paths := st.paths ++ [[]] } (sendN :: crest)
      = true := by
    rw [chainOk_congr (show ({ st with paths := st.paths ++ [[]] } : St).bridges
      = st.bridges from rfl)]
    exact hok
  have hsend := flood_chain crest sendN { st with paths := st.paths ++ [[]] }
    ⟨sendN, rootN, 0, st.paths.length⟩ fuel hok0
    (by simp only [List.length_cons] at hfuel; omega)
  obtain ⟨st1, hst1⟩ : ∃ s, chainResult { st with paths := st.paths ++ [[]] }
      ⟨sendN, rootN, 0, st.paths.length⟩ (sendN :: crest) = s := ⟨_, rfl⟩
  rw [hst1] at hsend
  have hbr1 : st1.bridges = st.bridges := by
    rw [← hst1, chainResult_bridges]
  have hfb1 : findBridge st1 rootN = some rb := by
    rw [findBridge_congr hbr1]; exact hroot
  have hpaths1 : getPath st1 st.paths.length = sendN :: crest := by
    have h2 := chainResult_path_cell (sendN :: crest)
      { st with paths := st.paths ++ [[]] } ⟨sendN, rootN, 0, st.paths.length⟩
      hok0 (by simp)
    rw [hst1] at h2
    simp only at h2
    rw [h2]
    show ((st.paths ++ [[]]).getD st.paths.length [] : List Name) ++ _ = _
    rw [getD_append_len, List.nil_append]
  have hcell1 : getCell st1 rb.received =
      chainPdus st ⟨sendN, rootN, 0, st.paths.length⟩ rb.received
        (sendN :: crest) := by
    have h2 := chainResult_cell (sendN :: crest)
      { st with paths := st.paths ++ [[]] } ⟨sendN, rootN, 0, st.paths.length⟩
      rb.received hok0 hr
    rw [hst1] at h2
    rw [h2, show getCell { st with paths := st.paths ++ [[]] } rb.received
      = getCell st rb.received from rfl, hempty, List.nil_append]
    exact chainPdus_congr
      (show ({ st with paths := st.paths ++ [[]] } : St).bridges = st.bridges
        from rfl) _ _ _
  have hrecv : Bridge.received_bdpus st1 rootN =
      some (st1.bdpuLists.length,
        { st1 with bdpuLists := st1.bdpuLists ++
            [st1.bdpuLists.getD rb.received []] }) := by
    simp [Bridge.received_bdpus, hfb1]
  have hcell2 : getCell { st1 with bdpuLists := st1.bdpuLists ++
      [st1.bdpuLists.getD rb.received []] } st1.bdpuLists.length =
      chainPdus st ⟨sendN, rootN, 0, st.paths.length⟩ rb.received
        (sendN :: crest) := by
    show (st1.bdpuLists ++ [st1.bdpuLists.getD rb.received []]).getD
      st1.bdpuLists.length [] = _
    rw [getD_append_len]
    exact hcell1
  refine ⟨setCell { st1 with bdpuLists := st1.bdpuLists ++
      [st1.bdpuLists.getD rb.received []] } st1.bdpuLists.length
      (sortByCost (getCell { st1 with bdpuLists := st1.bdpuLists ++
        [st1.bdpuLists.getD rb.received []] } st1.bdpuLists.length)), ?_⟩
  have hcell3 : getCell (setCell { st1 with bdpuLists := st1.bdpuLists ++
      [st1.bdpuLists.getD rb.received []] } st1.bdpuLists.length
      (sortByCost (getCell { st1 with bdpuLists := st1.bdpuLists ++
        [st1.bdpuLists.getD rb.received []] } st1.bdpuLists.length)))
      st1.bdpuLists.length =
      sortByCost (chainPdus st ⟨sendN, rootN, 0, st.paths.length⟩ rb.received
        (sendN :: crest)) := by
    show ((st1.bdpuLists ++ [st1.bdpuLists.getD rb.received []]).set
        st1.bdpuLists.length
        (sortByCost (getCell { st1 with bdpuLists := st1.bdpuLists ++
          [st1.bdpuLists.getD rb.received []] } st1.bdpuLists.length))).getD
        st1.bdpuLists.length [] = _
    rw [getD_set_same _ _ _ _ (by simp), hcell2]
  simp only [shortest_path_core, BridgeProtocolDataUnit.init, hsend, hrecv]
  rw [hcell3]
  rcases hsel : (sortByCost (chainPdus st ⟨sendN, rootN, 0, st.paths.length⟩
      rb.received (sendN :: crest))).head? with _ | sel
  · rfl
  · have hmem : sel ∈ chainPdus st ⟨sendN, rootN, 0, st.paths.length⟩
        rb.received (sendN :: crest) :=
      mem_sortByCost.mp (mem_of_head hsel)
    have hsp : sel.path = st.paths.length := by
      have := chainPdus_path (sendN :: crest) st
        ⟨sendN, rootN, 0, st.paths.length⟩ rb.received sel hmem
      simpa using this
    have hgp : getPath (setCell { st1 with bdpuLists := st1.bdpuLists ++
        [st1.bdpuLists.getD rb.received []] } st1.bdpuLists.length
        (sortByCost (getCell { st1 with bdpuLists := st1.bdpuLists ++
          [st1.bdpuLists.getD rb.received []] } st1.bdpuLists.length)))
        sel.path = sendN :: crest := by
      rw [getPath_setCell, hsp]
      exact hpaths1
    simp only [hgp]

lemma get_set_same {α : Type} (l : List α) (i : Nat) (v : α)
    (h : i < l.length) : (l.set i v).get? i = some v := by
  induction l generalizing i with
  | nil => simp at h
  | cons a t ih =>
    cases i with
    | zero => rfl
    | succ j =>
      simp only [List.set, List.get?]
      exact ih j (by simpa using h)

lemma get_set_other {α : Type} (l : List α) (i j : Nat) (v : α)
    (h : i ≠ j) : (l.set i v).get? j = l.get? j := by
  induction l generalizing i j with
  | nil => simp [List.set]
  | cons a t ih =>
    cases i with
    | zero =>
      cases j with
      | zero => exact absurd rfl h
      | succ k => rfl
    | succ i2 =>
      cases j with
      | zero => rfl
      | succ k =>
        simp only [List.set, List.get?]
        exact ih i2 k (by omega)

lemma lt_of_get_some {α : Type} {l : List α} {i : Nat} {a : α}
    (h : l.get? i = some a) : i < l.length := by
  induction l generalizing i with
  | nil => simp at h
  | cons x t ih =>
    cases i with
    | zero => simp
    | succ j =>
      simp only [List.get?] at h
      have := ih h
      simpa using Nat.succ_lt_succ this

/-- C7: for every explicitly supplied port number outside [1024, 65535],
constructing a Port with that number fails with an InvalidArgument error.
The claim as stated is false: Python's `if number` treats a supplied `0` as
falsy, so `Port(0)` skips the range check and silently draws a random
ephemeral number instead of failing. -/
theorem c7_counterexample :
    Port.init (some 0) 1 2000 = .ok (mkPort 2000 1) ∧
    ((0 : Int) < 1024 ∨ (0 : Int) > 65535) := by decide

/-- C7 (amended): for every explicitly supplied nonzero port number outside
[1024, 65535], `Port.__init__` raises `ValueError("Outside port range.")`
(the InvalidArgument error); a supplied `0` is instead treated as
unspecified. -/
theorem c7_amended (n pr rand : Int) (hn : n ≠ 0)
    (hout : n < 1024 ∨ n > 65535) :
    Port.init (some n) pr rand = .error (.valueError "Outside port range.") := by
  simp [Port.init, hn, hout]

/-- C7 witness: the amended theorem applied at the concrete out-of-range
number 70000. -/
theorem c7_witness :
    Port.init (some 70000) 1 0 = .error (.valueError "Outside port range.") :=
  c7_amended 70000 1 0 (by decide) (by decide)

/-- C6: for every two previously unconnected ports p and q, after
p.connect(q) both p.connected and q.connected are true.  The claim is false:
`Port.connect` sets only `other.listener` and `self.listened`, one direction
on each side, and `connected` requires both directions on the same port, so
after a single `p.connect(q)` on fresh ports both ports report
`connected == False`. -/
theorem c6_counterexample :
    ((Port.connect [mkPort 2000 1, mkPort 3000 1] 0 1).get? 0).map
      PortV.connected = some false ∧
    ((Port.connect [mkPort 2000 1, mkPort 3000 1] 0 1).get? 1).map
      PortV.connected = some false := by decide

/-- C6 (amended): `p.connect(q)` establishes the half-links
`p.listened = q` and `q.listener = p` only; for ports whose opposite
direction was unset, both `p.connected` and `q.connected` remain false after
the call (a fully connected pair additionally needs the converse call
`q.connect(p)`). -/
theorem c6_amended (ports : List PortV) (i j : Nat) (p q : PortV)
    (hp : ports.get? i = some p) (hq : ports.get? j = some q) (hij : i ≠ j) :
    (Port.connect ports i j).get? i = some { p with listened := some j } ∧
    (Port.connect ports i j).get? j = some { q with listener := some i } ∧
    (p.listener = none →
      ((Port.connect ports i j).get? i).map PortV.connected = some false) ∧
    (q.listened = none →
      ((Port.connect ports i j).get? j).map PortV.connected = some false) := by
  have hconn : Port.connect ports i j =
      (ports.set j { q with listener := some i }).set i
        { p with listened := some j } := by
    simp only [Port.connect, hq]
    rw [get_set_other _ _ _ _ (fun hji => hij hji.symm), hp]
  have hgi : (Port.connect ports i j).get? i =
      some { p with listened := some j } := by
    rw [hconn]
    exact get_set_same _ _ _ (by
      rw [List.length_set]
      exact lt_of_get_some hp)
  have hgj : (Port.connect ports i j).get? j =
      some { q with listener := some i } := by
    rw [hconn, get_set_other _ _ _ _ hij, get_set_same _ _ _ (lt_of_get_some hq)]
  refine ⟨hgi, hgj, ?_, ?_⟩
  · intro hpl
    rw [hgi]
    simp [PortV.connected, hpl]
  · intro hql
    rw [hgj]
    simp [PortV.connected, hql]

lemma unalloc_none_iff (b : BridgeV) :
    b.unallocated_port = none ↔ allPortsConnected b = true := by
  simp only [BridgeV.unallocated_port, List.find?_eq_none, allPortsConnected,
    List.all_eq_true]
  constructor
  · intro h p hp
    have := h p hp
    simpa using this
  · intro h p hp
    simp [h p hp]

lemma unalloc_congr_ports {b1 b2 : BridgeV} (h : b1.ports = b2.ports) :
    b1.unallocated_port = b2.unallocated_port := by
  simp only [BridgeV.unallocated_port, h]

lemma findBridge_update (st : St) (n : Name) (f : BridgeV → BridgeV)
    (hname : ∀ b, (f b).name = b.name) (m : Name) :
    findBridge (updateBridge st n f) m =
      (findBridge st m).map (fun b => if b.name == n then f b else b) := by
  simp only [findBridge, updateBridge]
  induction st.bridges with
  | nil => rfl
  | cons b rest ih =>
    by_cases hb : (b.name == m) = true
    · have hgb : ((if b.name == n then f b else b).name == m) = true := by
        by_cases hn : (b.name == n) = true
        · simpa [hn, hname] using hb
        · simpa [hn] using hb
      simp only [List.map_cons, List.find?, hgb, hb]
      simp
    · have hgb : ((if b.name == n then f b else b).name == m) = false := by
        by_cases hn : (b.name == n) = true
        · simp only [hn, if_true, hname]
          simpa using hb
        · simp only [hn, if_false]
          simpa using hb
      have hb2 : (b.name == m) = false := by simpa using hb
      simp only [List.map_cons, List.find?, hgb, hb2]
      exact ih

lemma updateBridge_ports (st : St) (n : Name) (f : BridgeV → BridgeV)
    (hports : ∀ b, (f b).ports = b.ports) :
    (updateBridge st n f).bridges.map (fun b => b.ports) =
      st.bridges.map (fun b => b.ports) := by
  simp only [updateBridge, List.map_map]
  apply List.map_congr_left
  intro b _
  by_cases hn : b.name = n
  · simp [hn, hports]
  · simp [hn]

/-- C5: Bridge.connect(other) fails with ResourceExhausted exactly when all
ports on either side are already allocated; otherwise it succeeds, and
repeated connects eventually exhaust a bridge's fixed port set.  The claim is
false: `Bridge.connect` never marks any port as connected (it never calls
`Port.connect`), so a bridge with a single port accepts a third consecutive
`connect` without error — repeated connects never exhaust the port set. -/
theorem c5_counterexample :
    exOk (((Bridge.connect c5St "x" "y").bind
      (fun s => Bridge.connect s "x" "z")).bind
      (fun s => Bridge.connect s "x" "w")) = true := by decide

/-- C5 (amended): `Bridge.connect` raises `ValueError("No free ports.")`
(ResourceExhausted) exactly when every port of self, or every port of other,
already reports `connected == True`; and the call never changes any port's
connection state, so repeated `Bridge.connect` calls alone can never exhaust
a bridge's port set (ports become connected only via direct `Port.connect`
calls in both directions). -/
theorem c5_amended (st : St) (selfN otherN : Name) (bs bo : BridgeV)
    (hs : findBridge st selfN = some bs) (ho : findBridge st otherN = some bo) :
    ((exOk (Bridge.connect st selfN otherN) = false) ↔
      (allPortsConnected bs = true ∨ allPortsConnected bo = true)) ∧
    (Bridge.connect st selfN otherN).map
        (fun s => s.bridges.map (fun b => b.ports)) =
      (Bridge.connect st selfN otherN).map
        (fun _ => st.bridges.map (fun b => b.ports)) := by
  cases hus : bs.unallocated_port with
  | none =>
    have hall : allPortsConnected bs = true := (unalloc_none_iff bs).mp hus
    have hconn : Bridge.connect st selfN otherN =
        .error (.valueError "No free ports.") := by
      simp only [Bridge.connect, hs, hus]
    rw [hconn]
    exact ⟨⟨fun _ => Or.inl hall, fun _ => rfl⟩, rfl⟩
  | some p =>
    have hnall : allPortsConnected bs = false := by
      by_cases h : allPortsConnected bs = true
      · rw [(unalloc_none_iff bs).mpr h] at hus; cases hus
      · simpa using h
    have hfb1 : findBridge (updateBridge st selfN
        (fun bb => { bb with listened := dictInsert p.number otherN bb.listened }))
        otherN = some (if bo.name == selfN then
          { bo with listened := dictInsert p.number otherN bo.listened }
        else bo) := by
      rw [findBridge_update st selfN
        (fun bb => { bb with listened := dictInsert p.number otherN bb.listened })
        (fun b => rfl) otherN, ho]
      rfl
    have hports_bo : (if bo.name == selfN then
        { bo with listened := dictInsert p.number otherN bo.listened }
        else bo).ports = bo.ports := by
      by_cases h : (bo.name == selfN) = true <;> simp [h]
    have huo : (if bo.name == selfN then
        { bo with listened := dictInsert p.number otherN bo.listened }
        else bo).unallocated_port = bo.unallocated_port :=
      unalloc_congr_ports hports_bo
    cases huo2 : bo.unallocated_port with
    | none =>
      have hallo : allPortsConnected bo = true := (unalloc_none_iff bo).mp huo2
      have hconn : Bridge.connect st selfN otherN =
          .error (.valueError "No free ports.") := by
        simp only [Bridge.connect, hs, hus, Bridge.set_listener, hfb1, huo, huo2]
      rw [hconn]
      exact ⟨⟨fun _ => Or.inr hallo, fun _ => rfl⟩, rfl⟩
    | some q =>
      have hallo : allPortsConnected bo = false := by
        by_cases h : allPortsConnected bo = true
        · rw [(unalloc_none_iff bo).mpr h] at huo2; cases huo2
        · simpa using h
      have hconn : Bridge.connect st selfN otherN = .ok (updateBridge
          (updateBridge st selfN
            (fun bb => { bb with listened := dictInsert p.number otherN bb.listened }))
          otherN
          (fun bb => { bb with listeners := dictInsert q.number selfN bb.listeners })) := by
        simp only [Bridge.connect, hs, hus, Bridge.set_listener, hfb1, huo, huo2]
      rw [hconn]
      constructor
      · simp [exOk, hnall, hallo]
      · simp only [Except.map]
        rw [updateBridge_ports _ otherN
            (fun bb => { bb with listeners := dictInsert q.number selfN bb.listeners })
            (fun b => rfl),
          updateBridge_ports st selfN
            (fun bb => { bb with listened := dictInsert p.number otherN bb.listened })
            (fun b => rfl)]
  

/-- C5 witness: the amended theorem applied to a concrete state where every
port of the connecting bridge is connected. -/
theorem c5_witness :
    ((exOk (Bridge.connect c5WSt "x" "y") = false) ↔
      (allPortsConnected ⟨"x", [⟨2000, 1, some 0, some 1, false⟩], false, [], [], 1, 0⟩ = true ∨
       allPortsConnected ⟨"y", [mkPort 2001 1], false, [], [], 1, 1⟩ = true)) ∧
    (Bridge.connect c5WSt "x" "y").map
        (fun s => s.bridges.map (fun b => b.ports)) =
      (Bridge.connect c5WSt "x" "y").map
        (fun _ => c5WSt.bridges.map (fun b => b.ports)) :=
  c5_amended c5WSt "x" "y"
    ⟨"x", [⟨2000, 1, some 0, some 1, false⟩], false, [], [], 1, 0⟩
    ⟨"y", [mkPort 2001 1], false, [], [], 1, 1⟩ rfl rfl

/-- C6 witness: the amended theorem applied to two fresh concrete ports. -/
theorem c6_witness :
    (Port.connect [mkPort 2000 1, mkPort 3000 1] 0 1).get? 0 =
      some { mkPort 2000 1 with listened := some 1 } ∧
    (Port.connect [mkPort 2000 1, mkPort 3000 1] 0 1).get? 1 =
      some { mkPort 3000 1 with listener := some 0 } ∧
    ((mkPort 2000 1).listener = none →
      ((Port.connect [mkPort 2000 1, mkPort 3000 1] 0 1).get? 0).map
        PortV.connected = some false) ∧
    ((mkPort 3000 1).listened = none →
      ((Port.connect [mkPort 2000 1, mkPort 3000 1] 0 1).get? 1).map
        PortV.connected = some false) :=
  c6_amended [mkPort 2000 1, mkPort 3000 1] 0 1 (mkPort 2000 1) (mkPort 3000 1)
    rfl rfl (by decide)

/-- C3: for every PDU passed to Bridge.send_bdpu, the original PDU instance
is left unmutated by that bridge (its total_cost and its path, including the
path's contents, are unchanged); only the copy made at that hop is mutated.
The claim is false for the path's contents: `copy.copy` is shallow, so the
copy's `_path` is the very same list object as the original's, and the hop's
`add_bridge` appends to it — after x.send_bdpu(pdu) the original PDU's path
contents have changed from [] to [x]. -/
theorem c3_counterexample :
    (send_bdpu 2 "x" ⟨"x", "root", 0, 0⟩ xSt).map (fun s => getPath s 0) =
      some ["x"] ∧ getPath xSt 0 = [] := by decide

/-- C3 (amended): a hop leaves the original PDU object's own fields
(bridge_id, root_id, total_cost) untouched — in this model the original is
passed on as an unchanged value — but the shallow copy shares the original's
path list object, so flooding a listener chain appends every visited bridge
to the original PDU's path contents. -/
theorem c3_amended (rest : List Name) (b : Name) (st stOut : St) (pdu : PDUv)
    (fuel : Nat)
    (hok : chainOk st (b :: rest) = true)
    (hp : pdu.path < st.paths.length)
    (hfuel : rest.length < fuel)
    (hrun : send_bdpu fuel b pdu st = some stOut) :
    getPath stOut pdu.path = getPath st pdu.path ++ (b :: rest) := by
  have h := flood_chain rest b st pdu fuel hok hfuel
  rw [hrun] at h
  have h2 : stOut = chainResult st pdu (b :: rest) := by
    injection h
  rw [h2]
  exact chainResult_path_cell (b :: rest) st pdu hok hp

/-- C3 witness: the amended theorem at the one-bridge chain. -/
theorem c3_witness :
    getPath ((send_bdpu 2 "x" ⟨"x", "root", 0, 0⟩ xSt).getD St.empty)
      (⟨"x", "root", 0, 0⟩ : PDUv).path =
    getPath xSt (⟨"x", "root", 0, 0⟩ : PDUv).path ++ ["x"] :=
  c3_amended [] "x" xSt ((send_bdpu 2 "x" ⟨"x", "root", 0, 0⟩ xSt).getD St.empty)
    ⟨"x", "root", 0, 0⟩ 2 (by decide) (by decide) (by decide) rfl

/-- Shared consequence of `shortest_path_core_eval`: over a listener chain
running from the sender to the root with an initially empty received list at
the root, `shortest_path` returns exactly the chain. -/
lemma shortest_path_chain_result (fuel : Nat) (st : St) (rootN sendN : Name)
    (chain : List Name) (rb : BridgeV) (res : Except Err (List Name))
    (stOut : St)
    (hok : chainOk st chain = true)
    (hhead : chain.head? = some sendN)
    (hlast : chain.getLast? = some rootN)
    (hroot : findBridge st rootN = some rb)
    (hr : rb.received < st.bdpuLists.length)
    (hempty : getCell st rb.received = [])
    (hfuel : chain.length ≤ fuel)
    (hrun : shortest_path fuel st rootN sendN = some (res, stOut)) :
    res = .ok chain := by
  obtain ⟨st3, hcore⟩ := shortest_path_core_eval fuel st rootN sendN chain rb
    hok hhead hroot hr hempty hfuel
  have hne : chainPdus st ⟨sendN, rootN, 0, st.paths.length⟩ rb.received chain
      ≠ [] := chainPdus_ne_nil _ (mem_of_getLast hlast) hroot
  obtain ⟨sel, hsel⟩ : ∃ sel, (sortByCost (chainPdus st ⟨sendN, rootN, 0,
      st.paths.length⟩ rb.received chain)).head? = some sel := by
    cases hsort : sortByCost (chainPdus st ⟨sendN, rootN, 0, st.paths.length⟩
        rb.received chain) with
    | nil =>
      exfalso
      apply hne
      have hlen := length_sortByCost (chainPdus st ⟨sendN, rootN, 0,
        st.paths.length⟩ rb.received chain)
      rw [hsort] at hlen
      exact List.length_eq_zero.mp hlen.symm
    | cons x xs => exact ⟨x, rfl⟩
  simp only [hsel] at hcore
  simp only [shortest_path, hcore] at hrun
  simp at hrun
  exact hrun.1.symm

/-- C1: for every tree topology with a single designated root bridge,
shortest_path(root_bridge, sending_bridge) returns a path whose first
element is the sending bridge and whose last element is the root bridge.
The tree topology is formalised by the listener chain that `Bridge.connect`
produces from the sender up to the root (each bridge's listener dict holds
exactly its parent, the root has none), with the root's received list
initially empty. -/
theorem c1_endpoints (fuel : Nat) (st : St) (rootN sendN : Name)
    (chain : List Name) (rb : BridgeV) (res : Except Err (List Name))
    (stOut : St)
    (hok : chainOk st chain = true)
    (hhead : chain.head? = some sendN)
    (hlast : chain.getLast? = some rootN)
    (hroot : findBridge st rootN = some rb)
    (hr : rb.received < st.bdpuLists.length)
    (hempty : getCell st rb.received = [])
    (hfuel : chain.length ≤ fuel)
    (hrun : shortest_path fuel st rootN sendN = some (res, stOut)) :
    res = .ok chain ∧ chain.head? = some sendN ∧
      chain.getLast? = some rootN :=
  ⟨shortest_path_chain_result fuel st rootN sendN chain rb res stOut hok hhead
    hlast hroot hr hempty hfuel hrun, hhead, hlast⟩

/-- C1 witness: the theorem applied to the concrete `first_case` topology. -/
theorem c1_witness :
    c1Run.1 = .ok ["e", "b", "a", "root"] ∧
    (["e", "b", "a", "root"] : List Name).head? = some "e" ∧
    (["e", "b", "a", "root"] : List Name).getLast? = some "root" :=
  c1_endpoints 10 fcStC "root" "e" ["e", "b", "a", "root"] rootB c1Run.1
    c1Run.2 (by decide) (by decide) (by decide) (by decide) (by decide)
    (by decide) (by decide) rfl

/-- C2: the total_cost of the PDU selected by shortest_path equals the sum of
the per-bridge costs of every bridge in the returned path.  The claim is
false: in `first_case` (all costs 1) the selected PDU's total_cost is 1 while
the returned path [e, b, a, root] sums to 4 — each hop copies the original
PDU, whose total_cost stays 0, so accumulation never happens. -/
theorem c2_counterexample :
    ((shortest_path_core 10 fcStC "root" "e").map
      (fun r => r.1.map (fun x => (x.1.total_cost, x.2)))) =
      some (.ok (1, ["e", "b", "a", "root"])) ∧
    costSum fcStC ["e", "b", "a", "root"] = 4 ∧
    (1 : Int) ≠ 4 := by decide

/-- C2 (amended): the total_cost of the PDU selected by shortest_path equals
the per-bridge cost of the root bridge alone — every hop copies the original
PDU, whose total_cost remains 0, so the copy received at the root carries
0 + root.cost, not the sum along the path. -/
theorem c2_amended (fuel : Nat) (st : St) (rootN sendN : Name)
    (chain : List Name) (rb : BridgeV) (sel : PDUv) (p : List Name)
    (stOut : St)
    (hok : chainOk st chain = true)
    (hhead : chain.head? = some sendN)
    (hlast : chain.getLast? = some rootN)
    (hroot : findBridge st rootN = some rb)
    (hr : rb.received < st.bdpuLists.length)
    (hempty : getCell st rb.received = [])
    (hfuel : chain.length ≤ fuel)
    (hmiss : ∀ b ∈ chain.dropLast, ∀ bb, findBridge st b = some bb →
      bb.received ≠ rb.received)
    (hrun : shortest_path_core fuel st rootN sendN =
      some (.ok (sel, p), stOut)) :
    sel.total_cost = rb.cost := by
  obtain ⟨st3, hcore⟩ := shortest_path_core_eval fuel st rootN sendN chain rb
    hok hhead hroot hr hempty hfuel
  rw [chainPdus_last_single chain st ⟨sendN, rootN, 0, st.paths.length⟩ rootN
    rb hlast hroot hmiss] at hcore
  simp only [show sortByCost [(⟨sendN, rootN, 0, st.paths.length⟩ : PDUv).add_cost
    rb.cost] = [(⟨sendN, rootN, 0, st.paths.length⟩ : PDUv).add_cost rb.cost]
    from rfl, List.head?_cons] at hcore
  rw [hcore] at hrun
  simp at hrun
  obtain ⟨⟨h1, h2⟩, h3⟩ := hrun
  rw [← h1]
  simp [PDUv.add_cost]

/-- C2 witness: the amended theorem applied to the concrete `first_case`
topology. -/
theorem c2_witness : c2Sel.1.total_cost = rootB.cost :=
  c2_amended 10 fcStC "root" "e" ["e", "b", "a", "root"] rootB c2Sel.1
    c2Sel.2 c2Run.2 (by decide) (by decide) (by decide) (by decide)
    (by decide) (by decide) (by decide) (by decide) rfl

/-- C8: if the root bridge receives no PDU during the flood, shortest_path
fails with a documented NotFound error rather than an index fault.  The
claim is false: the source indexes `received_bdpus[0]` unconditionally, so a
disconnected topology produces an IndexError (an index fault), and no
NotFound error exists anywhere in the flooding code. -/
theorem c8_counterexample :
    (shortest_path 5 discSt "root" "s").map (fun r => r.1) =
      some (.error .indexError) ∧ Err.indexError ≠ Err.notFound := by decide

/-- C8 (amended): if the flood never reaches the root bridge (no visited
bridge's received list is the root's), `shortest_path` fails with the index
fault IndexError from `received_bdpus[0]`, not with a NotFound error. -/
theorem c8_amended (fuel : Nat) (st : St) (rootN sendN : Name)
    (chain : List Name) (rb : BridgeV) (res : Except Err (List Name))
    (stOut : St)
    (hok : chainOk st chain = true)
    (hhead : chain.head? = some sendN)
    (hroot : findBridge st rootN = some rb)
    (hr : rb.received < st.bdpuLists.length)
    (hempty : getCell st rb.received = [])
    (hfuel : chain.length ≤ fuel)
    (hmiss : ∀ b ∈ chain, ∀ bb, findBridge st b = some bb →
      bb.received ≠ rb.received)
    (hrun : shortest_path fuel st rootN sendN = some (res, stOut)) :
    res = .error .indexError := by
  obtain ⟨st3, hcore⟩ := shortest_path_core_eval fuel st rootN sendN chain rb
    hok hhead hroot hr hempty hfuel
  rw [chainPdus_nil_of_miss chain st ⟨sendN, rootN, 0, st.paths.length⟩
    rb.received hmiss] at hcore
  simp only [show sortByCost [] = [] from rfl, List.head?_nil] at hcore
  simp only [shortest_path, hcore] at hrun
  simp at hrun
  exact hrun.1.symm

/-- C8 witness: the amended theorem applied to the concrete disconnected
topology. -/
theorem c8_witness : c8Run.1 = .error .indexError :=
  c8_amended 5 discSt "root" "s" ["s"]
    ⟨"root", [mkPort 2000 1], true, [], [], 1, 0⟩ c8Run.1 c8Run.2
    (by decide) (by decide) (by decide) (by decide) (by decide) (by decide)
    (by decide) rfl

set_option maxHeartbeats 1000000 in
lemma fcBuild_eq (r0 rb rc rd re rf : Int) :
    fcBuild r0 rb rc rd re rf = .ok (fcSt r0 rb rc rd re rf) := by
  simp [fcBuild, stepConnect, Bridge.init, Bridge.elect, Bridge.connect,
    Bridge.set_listener, updateBridge, findBridge, St.empty,
    BridgeV.unallocated_port, PortV.connected, mkPort, dictInsert, dictValues,
    List.find?, Except.bind, fcSt]

/-- C4: for the concrete topology built as the chain root←a←c←d←f together
with the branch root←a←b←e, every bridge with cost 1, shortest_path(root, e)
returns exactly the path [e, b, a, root] — for every draw of the ephemeral
port numbers of the six default-port bridges. -/
theorem c4_first_case (r0 rb rc rd re rf : Int) (st : St)
    (res : Except Err (List Name)) (stOut : St)
    (hbuild : fcBuild r0 rb rc rd re rf = .ok st)
    (hrun : shortest_path 10 st "root" "e" = some (res, stOut)) :
    res = .ok ["e", "b", "a", "root"] := by
  rw [fcBuild_eq] at hbuild
  have hst : st = fcSt r0 rb rc rd re rf := by
    injection hbuild with h
    exact h.symm
  subst hst
  exact shortest_path_chain_result 10 (fcSt r0 rb rc rd re rf) "root" "e"
    ["e", "b", "a", "root"]
    ⟨"root", [mkPort r0 1], true, [(r0, "a")], [], 1, 0⟩ res stOut
    rfl (by decide) (by decide) rfl (Nat.zero_lt_succ 6) rfl (by decide) hrun

/-- C4 witness: the theorem applied at one concrete draw of the port
numbers. -/
theorem c4_witness : c1Run.1 = .ok ["e", "b", "a", "root"] :=
  c4_first_case 2000 2001 2002 2003 2004 2005 fcStC c1Run.1 c1Run.2 rfl rfl

/-- `send_bdpu` never changes the bridge objects: all its mutations hit the
two heaps of list objects. -/
lemma send_bdpu_bridges : ∀ (fuel : Nat) (b : Name) (pdu : PDUv)
    (st stOut : St),
    send_bdpu fuel b pdu st = some stOut → stOut.bridges = st.bridges := by
  intro fuel
  induction fuel with
  | zero => intro b pdu st stOut h; simp [send_bdpu] at h
  | succ f ih =>
    intro b pdu st stOut h
    have aux : ∀ (ls : List Name) (s0 : St),
        ls.foldl (fun acc l => acc.bind (fun s => send_bdpu f l pdu s))
          (some s0) = some stOut →
        stOut.bridges = s0.bridges := by
      intro ls
      induction ls with
      | nil =>
        intro s0 h0
        injection h0 with h0
        rw [← h0]
      | cons l ls2 ihl =>
        intro s0 h0
        rw [List.foldl_cons, Option.some_bind] at h0
        cases hs : send_bdpu f l pdu s0 with
        | none =>
          rw [hs] at h0
          have hnone : ∀ (xs : List Name), xs.foldl
              (fun acc l => acc.bind (fun s => send_bdpu f l pdu s)) none =
                none := by
            intro xs
            induction xs with
            | nil => rfl
            | cons x xs2 ihx =>
              rw [List.foldl_cons, Option.none_bind]
              exact ihx
          rw [hnone] at h0
          cases h0
        | some s1 =>
          rw [hs] at h0
          rw [ihl s1 h0]
          exact ih l pdu s0 s1 hs
    cases hfb : findBridge st b with
    | none =>
      simp only [send_bdpu, hfb] at h
      exact Option.noConfusion h
    | some bb =>
      simp only [send_bdpu, hfb] at h
      have h2 := aux (dictValues bb.listeners) _ h
      exact h2

/-- C9: for every acyclic (tree-shaped) listener topology, Bridge.send_bdpu
terminates, with recursion depth bounded by the longest listener chain from
the sending bridge.  Acyclicity is expressed by a rank function that strictly
decreases from each bridge to its listeners (so `rank b` bounds the longest
listener chain from `b`), and termination by `send_bdpu` completing within
any fuel exceeding that rank — fuel here counts exactly the recursion
depth. -/
theorem c9_termination (st : St) (rank : Name → Nat)
    (hdec : ∀ bv ∈ st.bridges, ∀ l ∈ dictValues bv.listeners,
      rank l < rank bv.name)
    (hclosed : ∀ bv ∈ st.bridges, ∀ l ∈ dictValues bv.listeners,
      (findBridge st l).isSome = true)
    (b : Name) (pdu : PDUv) (fuel : Nat)
    (hb : (findBridge st b).isSome = true) (hfuel : rank b < fuel) :
    (send_bdpu fuel b pdu st).isSome = true := by
  suffices h : ∀ (fuel : Nat) (b : Name) (pdu : PDUv) (st2 : St),
      st2.bridges = st.bridges → (findBridge st2 b).isSome = true →
      rank b < fuel → (send_bdpu fuel b pdu st2).isSome = true by
    exact h fuel b pdu st rfl hb hfuel
  intro fuel
  induction fuel with
  | zero => intro b pdu st2 _ _ h; omega
  | succ f ih =>
    intro b pdu st2 hbr hb hfuel
    obtain ⟨bb, hfb⟩ : ∃ bb, findBridge st2 b = some bb := by
      cases hfb : findBridge st2 b with
      | none => rw [hfb] at hb; simp at hb
      | some bb => exact ⟨bb, rfl⟩
    have hmem : bb ∈ st.bridges := by
      have := List.mem_of_find?_eq_some hfb
      rwa [hbr] at this
    have hname : bb.name = b := by
      simpa using List.find?_some hfb
    have aux : ∀ (ls : List Name), (∀ l ∈ ls, rank l < rank b) →
        (∀ l ∈ ls, (findBridge st l).isSome = true) →
        ∀ (s0 : St), s0.bridges = st.bridges →
        (ls.foldl (fun acc l => acc.bind (fun s => send_bdpu f l pdu s))
          (some s0)).isSome = true := by
      intro ls
      induction ls with
      | nil => intro _ _ s0 _; simp
      | cons l ls2 ihl =>
        intro hrk hcl s0 hs0
        rw [List.foldl_cons, Option.some_bind]
        have hbl : (findBridge s0 l).isSome = true := by
          rw [findBridge_congr hs0]
          exact hcl l (List.mem_cons_self _ _)
        have hsome : (send_bdpu f l pdu s0).isSome = true :=
          ih l pdu s0 hs0 hbl (by
            have := hrk l (List.mem_cons_self _ _)
            omega)
        obtain ⟨s1, hs1⟩ := Option.isSome_iff_exists.mp hsome
        rw [hs1]
        exact ihl (fun x hx => hrk x (List.mem_cons_of_mem l hx))
          (fun x hx => hcl x (List.mem_cons_of_mem l hx)) s1
          (by rw [send_bdpu_bridges f l pdu s0 s1 hs1]; exact hs0)
    simp only [send_bdpu, hfb]
    apply aux (dictValues bb.listeners)
    · intro l hl
      have := hdec bb hmem l hl
      rw [hname] at this
      omega
    · intro l hl
      exact hclosed bb hmem l hl
    · exact hbr

/-- C9 witness: termination of the flood from `e` on the concrete
`first_case` topology, with fuel equal to the longest listener chain from `e`
plus one. -/
theorem c9_witness :
    (send_bdpu 4 "e" ⟨"e", "root", 0, 0⟩ fcStC).isSome = true :=
  c9_termination fcStC fcRank (by decide) (by decide) "e" ⟨"e", "root", 0, 0⟩
    4 (by decide) (by decide)

/-- C10: reading Bridge.received_bdpus returns a fresh copy of the bridge's
stored PDU list, so the in-place sort performed inside shortest_path mutates
only that copy: after shortest_path returns, the root bridge's internally
stored received list object still holds exactly the PDUs in flood arrival
order (the contents it had immediately after the flood). -/
theorem c10_received_copy (fuel : Nat) (st : St) (rootN sendN : Name)
    (st1 : St) (rb : BridgeV) (res : Except Err (List Name)) (stOut : St)
    (hsend : send_bdpu fuel sendN ⟨sendN, rootN, 0, st.paths.length⟩
      { st with paths := st.paths ++ [[]] } = some st1)
    (hroot : findBridge st1 rootN = some rb)
    (hr : rb.received < st1.bdpuLists.length)
    (hrun : shortest_path fuel st rootN sendN = some (res, stOut)) :
    getCell stOut rb.received = getCell st1 rb.received := by
  have hrecv : Bridge.received_bdpus st1 rootN =
      some (st1.bdpuLists.length,
        { st1 with bdpuLists := st1.bdpuLists ++
            [st1.bdpuLists.getD rb.received []] }) := by
    simp [Bridge.received_bdpus, hroot]
  have hcells : ∀ X, getCell (setCell { st1 with bdpuLists :=
      st1.bdpuLists ++ [st1.bdpuLists.getD rb.received []] }
      st1.bdpuLists.length X) rb.received = getCell st1 rb.received := by
    intro X
    show ((st1.bdpuLists ++ [st1.bdpuLists.getD rb.received []]).set
        st1.bdpuLists.length X).getD rb.received [] = _
    rw [getD_set_other _ _ _ _ _ (by omega)]
    exact getD_append_lt _ _ _ _ hr
  simp only [shortest_path, shortest_path_core, BridgeProtocolDataUnit.init,
    hsend, hrecv] at hrun
  rcases hh : (getCell (setCell { st1 with bdpuLists := st1.bdpuLists ++
      [st1.bdpuLists.getD rb.received []] } st1.bdpuLists.length
      (sortByCost (getCell { st1 with bdpuLists := st1.bdpuLists ++
        [st1.bdpuLists.getD rb.received []] } st1.bdpuLists.length)))
      st1.bdpuLists.length).head? with _ | sel
  · simp only [hh, Option.map_some', Option.some.injEq,
      Prod.mk.injEq] at hrun
    rw [← hrun.2]
    exact hcells _
  · simp only [hh, Option.map_some', Option.some.injEq,
      Prod.mk.injEq] at hrun
    rw [← hrun.2]
    exact hcells _

/-- C10 witness: the theorem applied to the concrete `first_case` topology:
the root's stored received list after `shortest_path` equals its arrival
order contents right after the flood. -/
theorem c10_witness :
    getCell c10Run.2 rootB.received = getCell c10St1 rootB.received :=
  c10_received_copy 10 fcStC "root" "e" c10St1 rootB c10Run.1 c10Run.2 rfl
    (by decide) (by decide) rfl
